import Mathlib

/-!
Verification development for the lunar-potential fitting pipeline (`flux.py`).

The embedding translates the pipeline into Lean:
* telemetry rows are `Row` records whose file-borne numeric fields are
  rationals (the input file holds decimal literals); derived geometry
  (norms, trigonometry) lives in `ℝ`;
* the float NaN sentinel used by the pipeline for "no usable data" is
  embedded as `Option ℝ` entries (`none` = NaN);
* the external loss-cone model `synth_losscone` and the external local
  optimizer are parameters of the fitting functions, mirroring the
  source's function boundaries.
-/

open Real

/-- Modelled from the spec: `config.CHANNELS` (the configuration module is
outside `src/`); the spec's end-to-end example fixes CHANNELS = 16. -/
def CHANNELS : ℕ := 16

/-- Modelled from the spec: `config.SWEEP_ROWS` (the configuration module is
outside `src/`); the spec's end-to-end example fixes SWEEP_ROWS = 15. -/
def SWEEP_ROWS : ℕ := 15

/-- The "epoch null" timestamp sentinel from `ERData._clean_sweep_data`. -/
def nullTime : String := "1970-01-01T00:00:00"

/-- One telemetry row of the ER data table: sweep identifier, timestamp,
magnetic-field 3-vector, per-channel azimuth angles, per-channel electron
flux, and energy (`config.ALL_COLS` schema, as used by `flux.py`). -/
structure Row where
  spec_no : ℤ
  time : String
  mag1 : ℚ
  mag2 : ℚ
  mag3 : ℚ
  phi : Fin CHANNELS → ℚ
  flux : Fin CHANNELS → ℚ
  energy : ℚ
deriving DecidableEq

/-- Squared magnetic-field magnitude of a row (sum of squares of the
three magnetometer components). -/
def magSq (r : Row) : ℚ := r.mag1 ^ 2 + r.mag2 ^ 2 + r.mag3 ^ 2

/-- Magnetic-field L2 magnitude, `np.linalg.norm` of the 3-vector. -/
noncomputable def magnitude (r : Row) : ℝ := Real.sqrt ((magSq r : ℚ) : ℝ)

/-- A row is invalid when its field magnitude is `≤ 1e-9` or `≥ 1e3`, or its
timestamp equals the epoch-null sentinel (`_clean_sweep_data`, lines 61-63). -/
def invalidRow (r : Row) : Prop :=
  magnitude r ≤ 1e-9 ∨ (1e3 : ℝ) ≤ magnitude r ∨ r.time = nullTime

theorem magSq_nonneg (r : Row) : (0 : ℝ) ≤ ((magSq r : ℚ) : ℝ) := by
  have : (0 : ℚ) ≤ magSq r := by unfold magSq; positivity
  exact_mod_cast this

theorem invalidRow_iff (r : Row) :
    invalidRow r ↔ magSq r ≤ 1e-18 ∨ (1e6 : ℚ) ≤ magSq r ∨ r.time = nullTime := by
  unfold invalidRow magnitude
  constructor
  · rintro (h | h | h)
    · left
      rcases (Real.sqrt_le_iff.mp h) with ⟨-, h2⟩
      have : ((magSq r : ℚ) : ℝ) ≤ ((1e-18 : ℚ) : ℝ) := by
        calc ((magSq r : ℚ) : ℝ) ≤ (1e-9 : ℝ) ^ 2 := h2
        _ = ((1e-18 : ℚ) : ℝ) := by norm_num
      exact_mod_cast this
    · right; left
      have h2 : ((1e3 : ℝ)) ^ 2 ≤ ((magSq r : ℚ) : ℝ) :=
        (Real.le_sqrt' (by norm_num)).mp h
      have : ((1e6 : ℚ) : ℝ) ≤ ((magSq r : ℚ) : ℝ) := by
        calc ((1e6 : ℚ) : ℝ) = (1e3 : ℝ) ^ 2 := by norm_num
        _ ≤ _ := h2
      exact_mod_cast this
    · right; right; exact h
  · rintro (h | h | h)
    · left
      have h' : ((magSq r : ℚ) : ℝ) ≤ (1e-9 : ℝ) ^ 2 := by
        have : ((magSq r : ℚ) : ℝ) ≤ ((1e-18 : ℚ) : ℝ) := by exact_mod_cast h
        calc ((magSq r : ℚ) : ℝ) ≤ ((1e-18 : ℚ) : ℝ) := this
        _ = (1e-9 : ℝ) ^ 2 := by norm_num
      exact Real.sqrt_le_iff.mpr ⟨by norm_num, h'⟩
    · right; left
      have h' : ((1e3 : ℝ)) ^ 2 ≤ ((magSq r : ℚ) : ℝ) := by
        have : ((1e6 : ℚ) : ℝ) ≤ ((magSq r : ℚ) : ℝ) := by exact_mod_cast h
        calc ((1e3 : ℝ)) ^ 2 = ((1e6 : ℚ) : ℝ) := by norm_num
        _ ≤ _ := this
      exact (Real.le_sqrt' (by norm_num)).mpr h'
    · right; right; exact h

instance : DecidablePred invalidRow := fun r =>
  decidable_of_iff' _ (invalidRow_iff r)

/-- The distinct `spec_no` values of rows flagged invalid
(`_clean_sweep_data`, line 66; list membership plays the role of the set). -/
def invalid_spec_nos (data : List Row) : List ℤ :=
  (data.filter (fun r => decide (invalidRow r))).map Row.spec_no

/-- `ERData._clean_sweep_data`: if some sweeps are invalid, drop every row
whose `spec_no` belongs to an invalid sweep; otherwise keep the data as is. -/
def clean_sweep_data (data : List Row) : List Row :=
  let specs := invalid_spec_nos data
  if specs.isEmpty then data
  else data.filter (fun r => decide (r.spec_no ∉ specs))

theorem mem_invalid_spec_nos {data : List Row} {r : Row}
    (hmem : r ∈ data) (hinv : invalidRow r) : r.spec_no ∈ invalid_spec_nos data := by
  unfold invalid_spec_nos
  exact List.mem_map.mpr ⟨r, List.mem_filter.mpr ⟨hmem, by simpa using hinv⟩, rfl⟩

theorem mem_clean_sweep_data {data : List Row} {r : Row}
    (h : r ∈ clean_sweep_data data) :
    r ∈ data ∧ r.spec_no ∉ invalid_spec_nos data := by
  unfold clean_sweep_data at h
  by_cases hempty : (invalid_spec_nos data).isEmpty
  · rw [if_pos hempty] at h
    refine ⟨h, ?_⟩
    intro hmem
    rw [List.isEmpty_iff] at hempty
    simp [hempty] at hmem
  · rw [if_neg hempty] at h
    rcases List.mem_filter.mp h with ⟨h1, h2⟩
    exact ⟨h1, by simpa using h2⟩

theorem clean_retained_not_invalid {data : List Row} {r : Row}
    (h : r ∈ clean_sweep_data data) : ¬ invalidRow r := by
  rcases mem_clean_sweep_data h with ⟨hmem, hspec⟩
  intro hinv
  exact hspec (mem_invalid_spec_nos hmem hinv)

/-- Sample valid row of sweep 1 (field magnitude 5). -/
def wRowA : Row :=
  ⟨1, "2001-01-01T00:00:00", 3, 4, 0, fun _ => 0, fun _ => 1, 100⟩

/-- Sample invalid row of sweep 1 (field magnitude 2000 ≥ 1e3). -/
def wRowB : Row :=
  ⟨1, "2001-01-01T00:01:00", 2000, 0, 0, fun _ => 0, fun _ => 1, 100⟩

/-- Sample valid row of sweep 2 (field magnitude 50). -/
def wRowC : Row :=
  ⟨2, "2001-01-01T00:02:00", 0, 0, 50, fun _ => 0, fun _ => 1, 100⟩

theorem not_invalid_wRowA : ¬ invalidRow wRowA := by
  rw [invalidRow_iff]
  push_neg
  exact ⟨by norm_num [magSq, wRowA], by norm_num [magSq, wRowA], by decide⟩

theorem invalid_wRowB : invalidRow wRowB := by
  rw [invalidRow_iff]
  right; left
  norm_num [magSq, wRowB]

theorem not_invalid_wRowC : ¬ invalidRow wRowC := by
  rw [invalidRow_iff]
  push_neg
  exact ⟨by norm_num [magSq, wRowC], by norm_num [magSq, wRowC], by decide⟩

theorem clean_w_eval : clean_sweep_data [wRowA, wRowB, wRowC] = [wRowC] := by
  have eA : decide (invalidRow wRowA) = false := decide_eq_false not_invalid_wRowA
  have eB : decide (invalidRow wRowB) = true := decide_eq_true invalid_wRowB
  have eC : decide (invalidRow wRowC) = false := decide_eq_false not_invalid_wRowC
  have hspecs : invalid_spec_nos [wRowA, wRowB, wRowC] = [wRowB.spec_no] := by
    simp [invalid_spec_nos, List.filter_cons, eA, eB, eC]
  rw [clean_sweep_data, hspecs]
  simp [wRowA, wRowB, wRowC, List.filter_cons]

/-- Claim C1: every row retained by sweep cleaning has magnetic-field L2
magnitude strictly in (1e-9, 1000), a timestamp different from the
epoch-null sentinel, and shares no `spec_no` with any invalid row of the
input dataset (whole-sweep removal), for every input dataset. -/
theorem clean_retained_valid (data : List Row) (r : Row)
    (h : r ∈ clean_sweep_data data) :
    (1e-9 : ℝ) < magnitude r ∧ magnitude r < 1e3 ∧ r.time ≠ nullTime ∧
      ∀ r' ∈ data, invalidRow r' → r.spec_no ≠ r'.spec_no := by
  have hnotinv := clean_retained_not_invalid h
  rcases mem_clean_sweep_data h with ⟨hmem, hspec⟩
  unfold invalidRow at hnotinv
  push_neg at hnotinv
  refine ⟨hnotinv.1, hnotinv.2.1, hnotinv.2.2, ?_⟩
  intro r' hr' hinv heq
  exact hspec (heq ▸ mem_invalid_spec_nos hr' hinv)

/-- Witness for C1 on a concrete three-row dataset: sweep 1 contains an
invalid row, so only the sweep-2 row survives cleaning. -/
theorem clean_retained_valid_witness :
    (1e-9 : ℝ) < magnitude wRowC ∧ magnitude wRowC < 1e3 ∧
      wRowC.time ≠ nullTime ∧
      ∀ r' ∈ [wRowA, wRowB, wRowC], invalidRow r' → wRowC.spec_no ≠ r'.spec_no :=
  clean_retained_valid [wRowA, wRowB, wRowC] wRowC
    (by rw [clean_w_eval]; exact List.mem_singleton.mpr rfl)

/-- Claim C10: sweep cleaning is idempotent — running `_clean_sweep_data` on
an already-cleaned dataset flags no row, so the second pass removes nothing
and returns the table unchanged. -/
theorem clean_sweep_data_idempotent (data : List Row) :
    clean_sweep_data (clean_sweep_data data) = clean_sweep_data data := by
  have hspecs : invalid_spec_nos (clean_sweep_data data) = [] := by
    unfold invalid_spec_nos
    have hfil : (clean_sweep_data data).filter (fun r => decide (invalidRow r)) = [] := by
      rw [List.filter_eq_nil_iff]
      intro r hr
      simpa using clean_retained_not_invalid hr
    rw [hfil]
    rfl
  conv_lhs => rw [clean_sweep_data]
  rw [hspecs]
  rfl

/-- Degrees to radians, `np.deg2rad`. -/
noncomputable def deg2rad (x : ℝ) : ℝ := x * (Real.pi / 180)

/-- Radians to degrees, `np.rad2deg`. -/
noncomputable def rad2deg (x : ℝ) : ℝ := x * (180 / Real.pi)

/-- `np.clip(x, -1, 1)`. -/
noncomputable def clip1 (x : ℝ) : ℝ := max (-1) (min x 1)

/-- `PitchAngle._get_cartesian_coords`: spherical (phi, theta) to Cartesian
(X, Y, Z) with X = cos(phi)·cos(theta), Y = sin(phi)·cos(theta),
Z = sin(theta). -/
noncomputable def get_cartesian_coords (phi theta : ℝ) : ℝ × ℝ × ℝ :=
  (Real.cos phi * Real.cos theta, Real.sin phi * Real.cos theta, Real.sin theta)

/-- Euclidean dot product on ℝ³ (the per-entry `einsum` contraction). -/
def dot3 (a b : ℝ × ℝ × ℝ) : ℝ := a.1 * b.1 + a.2.1 * b.2.1 + a.2.2 * b.2.2

/-- Unit magnetic-field vector of a row (`_process_data`, line 159). -/
noncomputable def unit_magnetic_field (r : Row) : ℝ × ℝ × ℝ :=
  ((r.mag1 : ℝ) / magnitude r, (r.mag2 : ℝ) / magnitude r, (r.mag3 : ℝ) / magnitude r)

/-- Cartesian look direction of channel `c` of row `r`: per-row azimuth and
fixed per-channel polar angle, both converted from degrees
(`_process_data`, lines 147-151). -/
noncomputable def look_direction (r : Row) (thetas : Fin CHANNELS → ℚ)
    (c : Fin CHANNELS) : ℝ × ℝ × ℝ :=
  get_cartesian_coords (deg2rad ((r.phi c : ℚ) : ℝ)) (deg2rad ((thetas c : ℚ) : ℝ))

/-- `PitchAngle.calculate_pitch_angles` per (row, channel): arccos of the
negated, clipped dot product of unit field and look direction, in degrees. -/
noncomputable def pitch_angle (r : Row) (thetas : Fin CHANNELS → ℚ)
    (c : Fin CHANNELS) : ℝ :=
  rad2deg (Real.arccos (clip1 (-(dot3 (unit_magnetic_field r) (look_direction r thetas c)))))

/-- Claim C2: for every row and channel, the computed pitch angle equals
arccos of the clipped, negated dot product of the unit magnetic field and
the Cartesian look direction, converted to degrees; the arccos argument is
always in [-1, 1] and the pitch angle always lies in [0°, 180°]. -/
theorem pitch_angle_spec (r : Row) (thetas : Fin CHANNELS → ℚ) (c : Fin CHANNELS) :
    pitch_angle r thetas c =
      rad2deg (Real.arccos (clip1
        (-(dot3 (unit_magnetic_field r) (look_direction r thetas c))))) ∧
    (-1 : ℝ) ≤ clip1 (-(dot3 (unit_magnetic_field r) (look_direction r thetas c))) ∧
    clip1 (-(dot3 (unit_magnetic_field r) (look_direction r thetas c))) ≤ 1 ∧
    0 ≤ pitch_angle r thetas c ∧ pitch_angle r thetas c ≤ 180 := by
  set x : ℝ := -(dot3 (unit_magnetic_field r) (look_direction r thetas c)) with hx
  have hclip_lo : (-1 : ℝ) ≤ clip1 x := le_max_left _ _
  have hclip_hi : clip1 x ≤ 1 := max_le (by norm_num) (min_le_right _ _)
  have harc_lo : (0 : ℝ) ≤ Real.arccos (clip1 x) := Real.arccos_nonneg _
  have harc_hi : Real.arccos (clip1 x) ≤ Real.pi := Real.arccos_le_pi _
  have hpi : (0 : ℝ) < Real.pi := Real.pi_pos
  refine ⟨rfl, hclip_lo, hclip_hi, ?_, ?_⟩
  · exact mul_nonneg harc_lo (by positivity)
  · show Real.arccos (clip1 x) * (180 / Real.pi) ≤ 180
    have h1 : Real.arccos (clip1 x) * (180 / Real.pi) ≤ Real.pi * (180 / Real.pi) :=
      mul_le_mul_of_nonneg_right harc_hi (by positivity)
    have h2 : Real.pi * (180 / Real.pi) = 180 := by
      field_simp
    linarith

/-- Pitch-angle table indexed by absolute row (`self.pitch_angle.pitch_angles`);
the fitter reads it per row, so the embedding passes it as a function. -/
abbrev AngleTable := ℕ → Fin CHANNELS → ℝ

open Classical in
/-- The set of incident channels of one row: pitch angle < 90°
(`incident_mask`, line 256). -/
noncomputable def incident_channels (ang : Fin CHANNELS → ℝ) : Finset (Fin CHANNELS) :=
  Finset.univ.filter (fun c => ang c < 90)

/-- The incident reference flux: `max(EPS, np.mean(electron_flux[incident_mask]))`
(line 264); the mean is the sum over incident channels divided by their count. -/
noncomputable def incident_reference (eps : ℝ) (row : Row) (ang : Fin CHANNELS → ℝ) : ℝ :=
  max eps ((Finset.sum (incident_channels ang) (fun c => ((row.flux c : ℚ) : ℝ))) /
    (incident_channels ang).card)

open Classical in
/-- `LossConeFitter._get_normalized_flux`: NaN vector (`List.replicate CHANNELS
none`) when the absolute row index is out of bounds or no channel is incident;
otherwise every channel's raw flux divided by the incident reference.
The `pitch_angles is None` guard of line 253 is unreachable post-construction
and the table is total here, so it has no counterpart. -/
noncomputable def get_normalized_flux (eps : ℝ) (data : List Row) (angles : AngleTable)
    (energy_bin measurement_chunk : ℕ) : List (Option ℝ) :=
  let index := measurement_chunk * SWEEP_ROWS + energy_bin
  if h : data.length ≤ index then List.replicate CHANNELS none
  else
    let row := data.get ⟨index, Nat.lt_of_not_le h⟩
    let ang := angles index
    if ¬ ∃ c, ang c < 90 then List.replicate CHANNELS none
    else
      (List.finRange CHANNELS).map (fun c =>
        some (((row.flux c : ℚ) : ℝ) / incident_reference eps row ang))

theorem get_normalized_flux_pos (eps : ℝ) (data : List Row) (angles : AngleTable)
    (energy_bin measurement_chunk : ℕ)
    (hidx : measurement_chunk * SWEEP_ROWS + energy_bin < data.length)
    (hinc : ∃ c, angles (measurement_chunk * SWEEP_ROWS + energy_bin) c < 90) :
    get_normalized_flux eps data angles energy_bin measurement_chunk =
      (List.finRange CHANNELS).map (fun c =>
        some (((data.get ⟨measurement_chunk * SWEEP_ROWS + energy_bin, hidx⟩).flux c : ℚ) /
          incident_reference eps
            (data.get ⟨measurement_chunk * SWEEP_ROWS + energy_bin, hidx⟩)
            (angles (measurement_chunk * SWEEP_ROWS + energy_bin)))) := by
  unfold get_normalized_flux
  rw [dif_neg (not_le.mpr hidx)]
  rw [if_neg (not_not.mpr hinc)]

/-- Claim C3: for every row index in bounds with at least one incident
channel, `_get_normalized_flux` divides the raw flux of every channel by the
single reference `max(EPS, mean incident flux)`, and that divisor is never
below EPS. -/
theorem normalized_flux_incident_reference (eps : ℝ) (data : List Row)
    (angles : AngleTable) (energy_bin measurement_chunk : ℕ)
    (hidx : measurement_chunk * SWEEP_ROWS + energy_bin < data.length)
    (hinc : ∃ c, angles (measurement_chunk * SWEEP_ROWS + energy_bin) c < 90) :
    get_normalized_flux eps data angles energy_bin measurement_chunk =
      (List.finRange CHANNELS).map (fun c =>
        some (((data.get ⟨measurement_chunk * SWEEP_ROWS + energy_bin, hidx⟩).flux c : ℚ) /
          incident_reference eps
            (data.get ⟨measurement_chunk * SWEEP_ROWS + energy_bin, hidx⟩)
            (angles (measurement_chunk * SWEEP_ROWS + energy_bin)))) ∧
    eps ≤ incident_reference eps
      (data.get ⟨measurement_chunk * SWEEP_ROWS + energy_bin, hidx⟩)
      (angles (measurement_chunk * SWEEP_ROWS + energy_bin)) :=
  ⟨get_normalized_flux_pos eps data angles energy_bin measurement_chunk hidx hinc,
   le_max_left _ _⟩

/-- All-zero pitch-angle table: every channel incident. -/
def wAngles0 : AngleTable := fun _ _ => 0

/-- Witness for C3 on a one-row dataset whose channels are all incident. -/
theorem normalized_flux_incident_reference_witness :
    get_normalized_flux 1 [wRowC] wAngles0 0 0 =
      (List.finRange CHANNELS).map (fun c =>
        some (((wRowC.flux c : ℚ) : ℝ) / incident_reference 1 wRowC (wAngles0 0))) ∧
    (1 : ℝ) ≤ incident_reference 1 wRowC (wAngles0 0) := by
  have h := normalized_flux_incident_reference 1 [wRowC] wAngles0 0 0 (by decide)
    ⟨⟨0, by norm_num [CHANNELS]⟩, by norm_num [wAngles0]⟩
  simpa using h

theorem map_some_ne_replicate_none (f : Fin CHANNELS → ℝ) :
    (List.finRange CHANNELS).map (fun c => some (f c)) ≠
      List.replicate CHANNELS (none : Option ℝ) := by
  intro h
  have h0 := congrArg List.head? h
  have hl : ((List.finRange CHANNELS).map (fun c => some (f c))).head? =
      some (some (f ⟨0, by norm_num [CHANNELS]⟩)) := rfl
  have hr : (List.replicate CHANNELS (none : Option ℝ)).head? = some none := rfl
  rw [hl, hr] at h0
  simp at h0

/-- Claim C4: `_get_normalized_flux` returns the all-NaN vector of length
CHANNELS exactly when the absolute row index `chunk·SWEEP_ROWS + bin` is out
of bounds of the cleaned dataset or no channel of that row has pitch angle
below 90°; the sentinel is returned as data, no error path exists. -/
theorem normalized_flux_nan_iff (eps : ℝ) (data : List Row) (angles : AngleTable)
    (energy_bin measurement_chunk : ℕ) :
    get_normalized_flux eps data angles energy_bin measurement_chunk =
        List.replicate CHANNELS none ↔
      (data.length ≤ measurement_chunk * SWEEP_ROWS + energy_bin ∨
        ¬ ∃ c, angles (measurement_chunk * SWEEP_ROWS + energy_bin) c < 90) := by
  by_cases hb : data.length ≤ measurement_chunk * SWEEP_ROWS + energy_bin
  · constructor
    · intro _; exact Or.inl hb
    · intro _
      unfold get_normalized_flux
      rw [dif_pos hb]
  · by_cases hinc : ∃ c, angles (measurement_chunk * SWEEP_ROWS + energy_bin) c < 90
    · constructor
      · intro heq
        exfalso
        rw [get_normalized_flux_pos eps data angles energy_bin measurement_chunk
          (Nat.lt_of_not_le hb) hinc] at heq
        exact map_some_ne_replicate_none _ heq
      · rintro (h | h)
        · exact absurd h hb
        · exact absurd hinc h
    · constructor
      · intro _; exact Or.inr hinc
      · intro _
        unfold get_normalized_flux
        rw [dif_neg hb, if_pos hinc]

/-- All entries of the model matrix are finite (`np.all(np.isfinite(model))`);
`none` embeds a non-finite float. -/
def allFiniteM (m : List (List (Option ℝ))) : Prop :=
  ∀ row ∈ m, ∀ v ∈ row, v ≠ none

/-- Every (finite) entry of the model matrix is ≤ 0 (`(model <= 0).all()`;
only reached on all-finite matrices). -/
def allNonposM (m : List (List (Option ℝ))) : Prop :=
  ∀ row ∈ m, ∀ v ∈ row, ∀ x : ℝ, v = some x → x ≤ 0

/-- The log-space residual sum with floor `eps`:
`np.sum((log(obs + eps) - log(model + eps))**2)` over entry pairs; a `none`
(float NaN) entry reads as 0, which the claims never reach. -/
noncomputable def log_residual (eps : ℝ) (obs model : List (List (Option ℝ))) : ℝ :=
  ((obs.zip model).map (fun rp =>
    ((rp.1.zip rp.2).map (fun vp =>
      (Real.log (vp.1.getD 0 + eps) - Real.log (vp.2.getD 0 + eps)) ^ 2)).sum)).sum

open Classical in
/-- The objective `chi2` nested in `_fit_surface_potential` (lines 338-346):
penalty 1e30 when the model output has a non-finite entry or is entirely ≤ 0,
otherwise the log-space residual sum with `eps = 1e-6`. -/
noncomputable def chi2 (obs model : List (List (Option ℝ))) : ℝ :=
  if ¬ allFiniteM model ∨ allNonposM model then 1e30
  else ((obs.zip model).map (fun rp =>
    ((rp.1.zip rp.2).map (fun vp =>
      (Real.log (vp.1.getD 0 + 1e-6) - Real.log (vp.2.getD 0 + 1e-6)) ^ 2)).sum)).sum

/-- Claim C5: the per-chunk objective returns the fixed penalty 1e30 exactly
on non-finite or entirely nonpositive model output, and otherwise the sum of
squared log-differences with ε = 1e-6. -/
theorem chi2_objective_spec (obs model : List (List (Option ℝ))) :
    ((¬ allFiniteM model ∨ allNonposM model) → chi2 obs model = 1e30) ∧
    (allFiniteM model → ¬ allNonposM model →
      chi2 obs model = log_residual 1e-6 obs model) := by
  constructor
  · intro h
    unfold chi2
    rw [if_pos h]
  · intro h1 h2
    unfold chi2 log_residual
    rw [if_neg (by rintro (hn | hp); exacts [hn h1, h2 hp])]

/-- Witness for C5: a 1×1 non-finite model is penalised, a 1×1 positive
model yields the residual sum. -/
theorem chi2_objective_spec_witness :
    chi2 [[some 1]] [[none]] = 1e30 ∧
    chi2 [[some 1]] [[some 1]] = log_residual 1e-6 [[some 1]] [[some 1]] := by
  constructor
  · refine (chi2_objective_spec [[some 1]] [[none]]).1 (Or.inl ?_)
    intro h
    have := h [none] (by simp) none (by simp)
    simp at this
  · refine (chi2_objective_spec [[some 1]] [[some 1]]).2 ?_ ?_
    · intro row hrow v hv
      rw [List.mem_singleton] at hrow
      subst hrow
      rw [List.mem_singleton] at hv
      subst hv
      simp
    · intro h
      have := h [some 1] (by simp) (some 1) (by simp) 1 rfl
      norm_num at this

/-- Result record of the external local minimizer (the scipy Nelder-Mead
interface): refined point, objective value there, success flag and
diagnostic message. -/
structure OptResult where
  x1 : ℝ
  x2 : ℝ
  fval : ℝ
  success : Bool
  message : String

/-- The external local minimizer, a parameter of the fitter: it receives the
objective and the starting point (`scipy.optimize.minimize`, line 356). -/
abbrev Optimizer := ((ℝ × ℝ) → ℝ) → (ℝ × ℝ) → OptResult

/-- The external loss-cone model, a parameter of the fitter:
`synth_losscone(energies, pitches, delta_U, bs_over_bm)` returning a model
matrix that may contain non-finite (`none`) entries. -/
abbrev LossConeModel :=
  List ℝ → List (Fin CHANNELS → ℝ) → ℝ → ℝ → List (List (Option ℝ))

open Classical in
/-- `np.argmin` over the candidate objective values: the first minimiser of
`f` on the list; `(0, 0)` on the empty list (unreachable with the 400-point
sample). -/
noncomputable def argmin_chi2 (f : (ℝ × ℝ) → ℝ) : List (ℝ × ℝ) → ℝ × ℝ
  | [] => (0, 0)
  | p :: rest => rest.foldl (fun best q => if f q < f best then q else best) p

/-- `LossConeFitter.build_norm2d`: stack `_get_normalized_flux` over the
energy bins 0..SWEEP_ROWS-1 of one chunk. -/
noncomputable def build_norm2d (eps : ℝ) (data : List Row) (angles : AngleTable)
    (measurement_chunk : ℕ) : List (List (Option ℝ)) :=
  (List.range SWEEP_ROWS).map (fun energy_bin =>
    get_normalized_flux eps data angles energy_bin measurement_chunk)

/-- `np.isnan(norm2d).all()`: every entry of the chunk matrix is NaN. -/
def allNaN (m : List (List (Option ℝ))) : Prop :=
  ∀ row ∈ m, ∀ v ∈ row, v = none

/-- The chunk objective of `_fit_surface_potential`: energies and pitch
angles sliced to rows `[s, e)` with `e` clamped to the dataset length, the
chunk matrix truncated to the same rows, and `chi2` against the model. -/
noncomputable def chunk_objective (synth : LossConeModel) (eps : ℝ)
    (data : List Row) (angles : AngleTable) (measurement_chunk : ℕ) :
    (ℝ × ℝ) → ℝ :=
  let s := measurement_chunk * SWEEP_ROWS
  let e := min ((measurement_chunk + 1) * SWEEP_ROWS) data.length
  let energies := ((data.drop s).take (e - s)).map (fun r => ((r.energy : ℚ) : ℝ))
  let pitches := (List.range (e - s)).map (fun k => angles (s + k))
  let norm2d := (build_norm2d eps data angles measurement_chunk).take (e - s)
  fun p => chi2 norm2d (synth energies pitches p.1 p.2)

open Classical in
/-- `LossConeFitter._fit_surface_potential` for one chunk: NaN-triple
(`Except.ok none`) when the chunk matrix is entirely NaN or starts beyond the
dataset; otherwise global scan over the candidate list, local refinement via
the optimizer, raising (`Except.error`) with the solver's message on
non-success. The `pitch_angles is None` guard (line 328) has no counterpart:
the table is total and of dataset length post-construction. -/
noncomputable def fit_surface_potential_chunk (synth : LossConeModel)
    (opt : Optimizer) (lhs : List (ℝ × ℝ)) (eps : ℝ) (data : List Row)
    (angles : AngleTable) (measurement_chunk : ℕ) :
    Except String (Option (ℝ × ℝ × ℝ)) :=
  let norm2d := build_norm2d eps data angles measurement_chunk
  if allNaN norm2d then .ok none
  else if data.length ≤ measurement_chunk * SWEEP_ROWS then .ok none
  else
    let f := chunk_objective synth eps data angles measurement_chunk
    let x0 := argmin_chi2 f lhs
    let result := opt f x0
    if result.success then .ok (some (result.x1, result.x2, result.fval))
    else .error result.message

/-- Sequential chunk loop of `fit_surface_potential` (lines 383-385): each
chunk's fit is appended as `(triple, chunk index)`; a raised optimizer error
aborts the loop and propagates. -/
noncomputable def run_chunks (synth : LossConeModel) (opt : Optimizer)
    (lhs : List (ℝ × ℝ)) (eps : ℝ) (data : List Row) (angles : AngleTable) :
    List ℕ → Except String (List (Option (ℝ × ℝ × ℝ) × ℕ))
  | [] => .ok []
  | i :: rest =>
    match fit_surface_potential_chunk synth opt lhs eps data angles i with
    | .error msg => .error msg
    | .ok v =>
      match run_chunks synth opt lhs eps data angles rest with
      | .error msg => .error msg
      | .ok tail => .ok ((v, i) :: tail)

/-- `LossConeFitter.fit_surface_potential`: fit every full chunk, in order;
`n_chunks = len(data) // SWEEP_ROWS` drops the trailing partial chunk. -/
noncomputable def fit_surface_potential_all (synth : LossConeModel)
    (opt : Optimizer) (lhs : List (ℝ × ℝ)) (eps : ℝ) (data : List Row)
    (angles : AngleTable) : Except String (List (Option (ℝ × ℝ × ℝ) × ℕ)) :=
  run_chunks synth opt lhs eps data angles (List.range (data.length / SWEEP_ROWS))

theorem not_allNaN_lt {eps : ℝ} {data : List Row} {angles : AngleTable}
    {measurement_chunk : ℕ}
    (h : ¬ allNaN (build_norm2d eps data angles measurement_chunk)) :
    measurement_chunk * SWEEP_ROWS < data.length := by
  by_contra hle
  push_neg at hle
  apply h
  intro row hrow v hv
  obtain ⟨bin, hbin, rfl⟩ := List.mem_map.mp hrow
  have hidx : data.length ≤ measurement_chunk * SWEEP_ROWS + bin :=
    le_trans hle (Nat.le_add_right _ _)
  unfold get_normalized_flux at hv
  rw [dif_pos hidx] at hv
  exact List.eq_of_mem_replicate hv

theorem run_chunks_all_ok (synth : LossConeModel) (opt : Optimizer)
    (lhs : List (ℝ × ℝ)) (eps : ℝ) (data : List Row) (angles : AngleTable)
    (v : ℕ → Option (ℝ × ℝ × ℝ)) (l : List ℕ)
    (h : ∀ j ∈ l, fit_surface_potential_chunk synth opt lhs eps data angles j = .ok (v j)) :
    run_chunks synth opt lhs eps data angles l = .ok (l.map (fun j => (v j, j))) := by
  induction l with
  | nil => rfl
  | cons i rest ih =>
    have hi := h i (List.mem_cons_self i rest)
    have hrest := ih (fun j hj => h j (List.mem_cons_of_mem _ hj))
    simp [run_chunks, hi, hrest]

theorem run_chunks_head_error (synth : LossConeModel) (opt : Optimizer)
    (lhs : List (ℝ × ℝ)) (eps : ℝ) (data : List Row) (angles : AngleTable)
    (i : ℕ) (tail : List ℕ) (msg : String)
    (h : fit_surface_potential_chunk synth opt lhs eps data angles i = .error msg) :
    run_chunks synth opt lhs eps data angles (i :: tail) = .error msg := by
  simp [run_chunks, h]

theorem run_chunks_prefix_ok_error (synth : LossConeModel) (opt : Optimizer)
    (lhs : List (ℝ × ℝ)) (eps : ℝ) (data : List Row) (angles : AngleTable)
    (pre rest : List ℕ) (msg : String)
    (hok : ∀ j ∈ pre, ∃ v, fit_surface_potential_chunk synth opt lhs eps data angles j = .ok v)
    (herr : run_chunks synth opt lhs eps data angles rest = .error msg) :
    run_chunks synth opt lhs eps data angles (pre ++ rest) = .error msg := by
  induction pre with
  | nil => simpa using herr
  | cons j pre ih =>
    obtain ⟨v, hv⟩ := hok j (List.mem_cons_self _ _)
    have hrec := ih (fun k hk => hok k (List.mem_cons_of_mem _ hk))
    simp [run_chunks, hv, hrec]

/-- Claim C6: the two failure modes of the per-chunk fit are distinguished —
an entirely-NaN chunk matrix (including chunks starting beyond the dataset
end, whose matrices are entirely NaN) yields the NaN-triple `ok none` without
raising; a non-success report from the local refinement raises an error
carrying the solver's diagnostic message; and the all-chunk driver propagates
that error without catching it. -/
theorem fit_chunk_failure_modes (synth : LossConeModel) (opt : Optimizer)
    (lhs : List (ℝ × ℝ)) (eps : ℝ) (data : List Row) (angles : AngleTable) :
    (∀ measurement_chunk,
      allNaN (build_norm2d eps data angles measurement_chunk) →
      fit_surface_potential_chunk synth opt lhs eps data angles measurement_chunk =
        .ok none) ∧
    (∀ measurement_chunk,
      ¬ allNaN (build_norm2d eps data angles measurement_chunk) →
      (opt (chunk_objective synth eps data angles measurement_chunk)
        (argmin_chi2 (chunk_objective synth eps data angles measurement_chunk) lhs)).success
          = false →
      fit_surface_potential_chunk synth opt lhs eps data angles measurement_chunk =
        .error (opt (chunk_objective synth eps data angles measurement_chunk)
          (argmin_chi2 (chunk_objective synth eps data angles measurement_chunk) lhs)).message) ∧
    (∀ i msg, i < data.length / SWEEP_ROWS →
      (∀ j, j < i → ∃ v, fit_surface_potential_chunk synth opt lhs eps data angles j = .ok v) →
      fit_surface_potential_chunk synth opt lhs eps data angles i = .error msg →
      fit_surface_potential_all synth opt lhs eps data angles = .error msg) := by
  refine ⟨?_, ?_, ?_⟩
  · intro chunk h
    unfold fit_surface_potential_chunk
    rw [if_pos h]
  · intro chunk h hsucc
    unfold fit_surface_potential_chunk
    rw [if_neg h, if_neg (not_le.mpr (not_allNaN_lt h))]
    simp only [hsucc]
    simp
  · intro i msg hi hok herr
    unfold fit_surface_potential_all
    set n := data.length / SWEEP_ROWS with hn
    have hsplit : List.range n =
        List.range i ++ (i :: ((List.range (n - i - 1)).map Nat.succ).map (i + ·)) := by
      have h1 : List.range n = List.range i ++ (List.range (n - i)).map (i + ·) := by
        conv_lhs => rw [show n = i + (n - i) by omega]
        exact List.range_add i (n - i)
      have h2 : List.range (n - i) = 0 :: (List.range (n - i - 1)).map Nat.succ := by
        rw [show n - i = (n - i - 1) + 1 by omega]
        exact List.range_succ_eq_map (n - i - 1)
      rw [h1, h2]
      simp
    rw [hsplit]
    exact run_chunks_prefix_ok_error synth opt lhs eps data angles _ _ msg
      (fun j hj => hok j (List.mem_range.mp hj))
      (run_chunks_head_error synth opt lhs eps data angles i _ msg herr)

/-- A stub external model returning an empty matrix, used in witnesses. -/
def wSynth : LossConeModel := fun _ _ _ _ => []

/-- A stub optimizer that always reports non-success with message "diag". -/
noncomputable def wOptFail : Optimizer := fun _ _ => ⟨0, 0, 0, false, "diag"⟩

/-- A 15-row dataset (one full chunk) of valid rows. -/
def wData15 : List Row := List.replicate 15 wRowC

theorem allNaN_nil_data : allNaN (build_norm2d 1 [] wAngles0 0) := by
  intro row hrow v hv
  obtain ⟨bin, hbin, rfl⟩ := List.mem_map.mp hrow
  unfold get_normalized_flux at hv
  rw [dif_pos (by simp)] at hv
  exact List.eq_of_mem_replicate hv

theorem not_allNaN_wData15 : ¬ allNaN (build_norm2d 1 wData15 wAngles0 0) := by
  intro h
  have hmem : get_normalized_flux 1 wData15 wAngles0 0 0 ∈
      build_norm2d 1 wData15 wAngles0 0 :=
    List.mem_map.mpr ⟨0, List.mem_range.mpr (by norm_num [SWEEP_ROWS]), rfl⟩
  have hidx : (0 : ℕ) * SWEEP_ROWS + 0 < wData15.length := by
    simp [wData15, SWEEP_ROWS]
  have hpos := get_normalized_flux_pos 1 wData15 wAngles0 0 0 hidx
    ⟨⟨0, by norm_num [CHANNELS]⟩, by norm_num [wAngles0]⟩
  obtain ⟨x, hx⟩ : ∃ x : ℝ, some x ∈ get_normalized_flux 1 wData15 wAngles0 0 0 := by
    rw [hpos]
    exact ⟨_, List.mem_map_of_mem _ (List.mem_finRange ⟨0, by norm_num [CHANNELS]⟩)⟩
  have hcontra := h _ hmem (some x) hx
  simp at hcontra

/-- Witness for C6: with a failing stub optimizer, the empty dataset gives the
NaN-triple, a one-chunk dataset raises the solver's message, and the
all-chunk driver propagates it. -/
theorem fit_chunk_failure_modes_witness :
    fit_surface_potential_chunk wSynth wOptFail [] 1 [] wAngles0 0 = .ok none ∧
    fit_surface_potential_chunk wSynth wOptFail [] 1 wData15 wAngles0 0 = .error "diag" ∧
    fit_surface_potential_all wSynth wOptFail [] 1 wData15 wAngles0 = .error "diag" := by
  have hchunk : fit_surface_potential_chunk wSynth wOptFail [] 1 wData15 wAngles0 0 =
      .error "diag" :=
    (fit_chunk_failure_modes wSynth wOptFail [] 1 wData15 wAngles0).2.1 0
      not_allNaN_wData15 rfl
  refine ⟨?_, hchunk, ?_⟩
  · exact (fit_chunk_failure_modes wSynth wOptFail [] 1 [] wAngles0).1 0 allNaN_nil_data
  · exact (fit_chunk_failure_modes wSynth wOptFail [] 1 wData15 wAngles0).2.2 0 "diag"
      (by simp [wData15, SWEEP_ROWS])
      (fun j hj => absurd hj (Nat.not_lt_zero j))
      hchunk

/-- Claim C7: when every full chunk fits without raising, the all-chunk driver
returns the table with exactly `⌊rows / SWEEP_ROWS⌋` rows (the trailing
partial chunk is never fit), whose i-th row is the fit of chunk i paired with
the chunk index i, in increasing chunk order. -/
theorem fit_all_table (synth : LossConeModel) (opt : Optimizer)
    (lhs : List (ℝ × ℝ)) (eps : ℝ) (data : List Row) (angles : AngleTable)
    (v : ℕ → Option (ℝ × ℝ × ℝ))
    (h : ∀ i, i < data.length / SWEEP_ROWS →
      fit_surface_potential_chunk synth opt lhs eps data angles i = .ok (v i)) :
    fit_surface_potential_all synth opt lhs eps data angles =
      .ok ((List.range (data.length / SWEEP_ROWS)).map (fun i => (v i, i))) ∧
    ((List.range (data.length / SWEEP_ROWS)).map (fun i => (v i, i))).length =
      data.length / SWEEP_ROWS :=
  ⟨run_chunks_all_ok synth opt lhs eps data angles v _
      (fun j hj => h j (List.mem_range.mp hj)),
   by simp⟩

/-- Witness for C7 on the empty dataset: zero chunks, empty table. -/
theorem fit_all_table_witness :
    fit_surface_potential_all wSynth wOptFail [] 1 [] wAngles0 = .ok [] ∧
    ([] : List (Option (ℝ × ℝ × ℝ) × ℕ)).length = ([] : List Row).length / SWEEP_ROWS := by
  have h := fit_all_table wSynth wOptFail [] 1 [] wAngles0 (fun _ => none)
    (fun i hi => absurd hi (by simp))
  simpa using h

/-- `scipy.stats.qmc.scale` for d = 2 with the bounds of line 222: affine map
of a unit-square point to ΔU ∈ [-1000, 1000], B_s/B_m ∈ [0.1, 1.0]. -/
noncomputable def scale_point (p : ℝ × ℝ) : ℝ × ℝ :=
  (-1000 + p.1 * (1000 - (-1000)), 0.1 + p.2 * (1 - 0.1))

/-- Modelled from the spec: `LatinHypercube(d=2, scramble=False).random(400)`
is a deterministic, non-scrambled low-discrepancy generator — a fixed
function of the requested point count with no random state. The concrete
point values live in the external scipy library, so the generator is a
parameter; `_generate_latin_hypercube` scales its 400 points to the bounds. -/
noncomputable def generate_latin_hypercube (sampler : ℕ → List (ℝ × ℝ)) : List (ℝ × ℝ) :=
  (sampler 400).map scale_point

/-- Claim C9: the global-scan sample comes from a deterministic seedless
generator, once per solver instance; two instances built from the same
generator hold equal samples, and two runs of the full fit on identical
inputs return identical tables. -/
theorem fit_all_deterministic (sampler : ℕ → List (ℝ × ℝ))
    (synth : LossConeModel) (opt : Optimizer) (eps : ℝ) (data : List Row)
    (angles : AngleTable) (lhs₁ lhs₂ : List (ℝ × ℝ))
    (h₁ : lhs₁ = generate_latin_hypercube sampler)
    (h₂ : lhs₂ = generate_latin_hypercube sampler) :
    lhs₁ = lhs₂ ∧
    fit_surface_potential_all synth opt lhs₁ eps data angles =
      fit_surface_potential_all synth opt lhs₂ eps data angles := by
  subst h₁
  subst h₂
  exact ⟨rfl, rfl⟩

/-- Witness for C9 with a stub generator. -/
theorem fit_all_deterministic_witness :
    generate_latin_hypercube (fun _ => []) = generate_latin_hypercube (fun _ => []) ∧
    fit_surface_potential_all wSynth wOptFail
        (generate_latin_hypercube (fun _ => [])) 1 [] wAngles0 =
      fit_surface_potential_all wSynth wOptFail
        (generate_latin_hypercube (fun _ => [])) 1 [] wAngles0 :=
  fit_all_deterministic (fun _ => []) wSynth wOptFail 1 [] wAngles0 _ _ rfl rfl
